import Mathlib

/-!
Shallow embedding of the magnetic field simulator (`main.py`).

Numbers are modelled as real numbers (`ℝ`); the scripted animation, whose
claim is about exact decimal values, is modelled over the rationals (`ℚ`).
A `Magnet` is modelled by the state that the field model, the tracer and
the manager actually read: the positions of its two poles, its strength,
its pole radius and its field-line count.  The unbounded `while` loop of
the tracer is modelled with an explicit fuel parameter.
-/

noncomputable section

open Classical

/-- State of a `Magnet` as read by the simulation core (`main.py`, class
`Magnet`): pole positions, strength, pole radius and field-line count. -/
structure Magnet where
  south : ℝ × ℝ
  north : ℝ × ℝ
  strength : ℝ
  radius : ℝ
  field_lines : ℕ

/-- The two-argument arctangent `math.atan2 y x`, realised as the argument
of the complex number `x + y i`. -/
def atan2 (y x : ℝ) : ℝ := Complex.arg ⟨x, y⟩

/-- One iteration of the inner pole loop of
`Magnet.calculate_field_direction` (`main.py` lines 177-187): `ip` is the
`enumerate` pair `(i, pole)`; a pole at squared distance zero is skipped,
otherwise the signed strength over the squared distance, scaled by the
unit vector from the pole to `point`, is added to the accumulator. -/
def poleStep (point : ℝ × ℝ) (m : Magnet) (acc : ℝ × ℝ) (ip : ℕ × (ℝ × ℝ)) : ℝ × ℝ :=
  let dx := point.1 - ip.2.1
  let dy := point.2 - ip.2.2
  let distance_squared := dx ^ 2 + dy ^ 2
  if distance_squared = 0 then acc
  else
    let pole_strength := if ip.1 = 0 then -m.strength else m.strength
    let strength_contribution := pole_strength / distance_squared
    (acc.1 + strength_contribution * (dx / Real.sqrt distance_squared),
     acc.2 + strength_contribution * (dy / Real.sqrt distance_squared))

/-- The accumulated `(x_component, y_component)` of
`Magnet.calculate_field_direction` (`main.py` lines 173-187). -/
def fieldComponents (point : ℝ × ℝ) (magnets : List Magnet) : ℝ × ℝ :=
  magnets.foldl (fun acc m => (([m.south, m.north]).enum).foldl (poleStep point m) acc) (0, 0)

/-- `Magnet.calculate_field_direction` (`main.py` lines 171-189). -/
def calculate_field_direction (point : ℝ × ℝ) (magnets : List Magnet) : ℝ :=
  atan2 (fieldComponents point magnets).2 (fieldComponents point magnets).1

/-- Spec-form contribution of one pole of signed strength `s`, following the
words of the specification: the `s / distance²` scaled unit vector pointing
from the pole toward the query point (with Lean's `x / 0 = 0` convention
for a pole coinciding with the query point). -/
def specPoleField (point pole : ℝ × ℝ) (s : ℝ) : ℝ × ℝ :=
  let dx := point.1 - pole.1
  let dy := point.2 - pole.2
  let d2 := dx ^ 2 + dy ^ 2
  ((s / d2) * (dx / Real.sqrt d2), (s / d2) * (dy / Real.sqrt d2))

/-- Spec-form superposition: the sum over the south pole (signed strength
`-strength`) and north pole (signed strength `+strength`) of every listed
magnet of the `specPoleField` terms. -/
def specFieldSum (point : ℝ × ℝ) (magnets : List Magnet) : ℝ × ℝ :=
  (magnets.map (fun m =>
    specPoleField point m.south (-m.strength) + specPoleField point m.north m.strength)).sum

/-- Spec-form contribution with the explicit skip: a pole at squared
distance zero contributes nothing (its term is skipped), any other pole
contributes its `specPoleField` term. -/
def skipTerm (point pole : ℝ × ℝ) (s : ℝ) : ℝ × ℝ :=
  if (point.1 - pole.1) ^ 2 + (point.2 - pole.2) ^ 2 = 0 then 0
  else specPoleField point pole s

/-- Per-magnet field term with the zero-distance skip. -/
def magnetTermSkip (point : ℝ × ℝ) (m : Magnet) : ℝ × ℝ :=
  skipTerm point m.south (-m.strength) + skipTerm point m.north m.strength

/-- A degenerate magnet both of whose poles sit at `(3, 4)`, used to
witness the zero-distance skip. -/
def degenerateMagnet : Magnet := ⟨(3, 4), (3, 4), 10, 8, 12⟩

/-- Sum of per-magnet field terms with the zero-distance skip. -/
def specSkipSum (point : ℝ × ℝ) (magnets : List Magnet) : ℝ × ℝ :=
  (magnets.map (magnetTermSkip point)).sum

/-- `Magnet.FIELD_RESOLUTION` (`main.py` line 111). -/
def FIELD_RESOLUTION : ℝ := 1

/-- `Magnet.in_bounds` (`main.py` lines 145-147). -/
def in_bounds (p : ℝ × ℝ) : Prop :=
  0 ≤ p.1 ∧ p.1 < 400 ∧ 0 ≤ p.2 ∧ p.2 < 400

/-- `Magnet.near_pole` (`main.py` lines 149-161): some pole of some listed
magnet has squared distance to `p` below `(radius - 1)²`. -/
def near_pole (p : ℝ × ℝ) (magnets : List Magnet) : Prop :=
  ∃ m ∈ magnets, ∃ pole ∈ [m.south, m.north],
    (p.1 - pole.1) ^ 2 + (p.2 - pole.2) ^ 2 < (m.radius - 1) ^ 2

/-- `Magnet.validate_field_position` (`main.py` lines 163-169). -/
def validate_field_position (p : ℝ × ℝ) (magnets : List Magnet) : Prop :=
  in_bounds p ∧ ¬ near_pole p magnets

/-- One step of the tracing loop of `Magnet.draw_field_lines` (`main.py`
lines 204-208): query the field direction at the current point, add the
polarity offset, and advance by `FIELD_RESOLUTION` along `(cos, sin)`. -/
def stepPoint (magnets : List Magnet) (offset : ℝ) (p : ℝ × ℝ) : ℝ × ℝ :=
  let direction := calculate_field_direction p magnets + offset
  (p.1 + FIELD_RESOLUTION * Real.cos direction,
   p.2 + FIELD_RESOLUTION * Real.sin direction)

/-- The `while` loop of `Magnet.draw_field_lines` (`main.py` lines
201-208), with an explicit fuel bound standing for the unbounded loop:
starting from the seed, while the current point validates, step and
append; the first failing point is still appended before the loop exits
is *not* the case here — the loop checks the current point and, when the
check fails, the list ends with that point unextended. -/
def traceAux (magnets : List Magnet) (offset : ℝ) : ℕ → ℝ × ℝ → List (ℝ × ℝ)
  | 0, p => [p]
  | n + 1, p =>
    if validate_field_position p magnets then
      p :: traceAux magnets offset n (stepPoint magnets offset p)
    else [p]

/-- Seed point `i` around a pole (`main.py` lines 194-200): the point at
angle `i * (2π / field_lines)` on the circle of radius `radius` around the
pole. -/
def seedPoint (m : Magnet) (pole : ℝ × ℝ) (i : ℕ) : ℝ × ℝ :=
  let angle_increment := 2 * Real.pi / (m.field_lines : ℝ)
  (pole.1 + m.radius * Real.cos ((i : ℝ) * angle_increment),
   pole.2 + m.radius * Real.sin ((i : ℝ) * angle_increment))

/-- `Magnet.draw_field_lines` (`main.py` lines 191-211), returning the
polylines actually drawn: traces from every seed of the north pole
(offset `0`) and the south pole (offset `π`), keeping only polylines with
more than one point. -/
def draw_field_lines (m : Magnet) (magnets : List Magnet) (fuel : ℕ) : List (List (ℝ × ℝ)) :=
  (([(m.north, (0 : ℝ)), (m.south, Real.pi)]).flatMap (fun po =>
    (List.range m.field_lines).map (fun i =>
      traceAux magnets po.2 fuel (seedPoint m po.1 i)))).filter
    (fun points => decide (1 < points.length))

/-- The list `on_magnets` of `MagnetManager.draw` (`main.py` line 102):
the magnets with strictly positive strength. -/
def onMagnets (ms : List Magnet) : List Magnet :=
  ms.filter (fun m => decide (0 < m.strength))

/-- `MagnetManager.draw` (`main.py` lines 99-104): every magnet of
`on_magnets` draws its field lines against `on_magnets` itself, which is
both the source list and the obstacle list. -/
def managerFieldLines (ms : List Magnet) (fuel : ℕ) : List (List (List (ℝ × ℝ))) :=
  (onMagnets ms).map (fun m => draw_field_lines m (onMagnets ms) fuel)

/-- Euclidean distance between two points of the plane. -/
def distPt (p q : ℝ × ℝ) : ℝ :=
  Real.sqrt ((p.1 - q.1) ^ 2 + (p.2 - q.2) ^ 2)

/-- Midpoint of two points of the plane. -/
def midPt (p q : ℝ × ℝ) : ℝ × ℝ :=
  ((p.1 + q.1) / 2, (p.2 + q.2) / 2)

/-- A magnet with pole radius `0`, used to exhibit the behaviour of the
proximity check when `radius - 1` is negative. -/
def zeroRadiusMagnet : Magnet := ⟨(100, 201 / 2), (100, 150), 10, 0, 12⟩

/-- An active magnet away from the point `(200, 200)`. -/
def activeMagnet : Magnet := ⟨(50, 50), (50, 90), 10, 8, 12⟩

/-- An inactive magnet (strength `0`) with its south pole at `(200, 200)`. -/
def inactiveMagnet : Magnet := ⟨(200, 200), (200, 240), 0, 8, 12⟩

/-- State of a `FerriteDipole` (`main.py` lines 226-237): fixed position,
body length and width, current angle (stored in degrees, exactly as the
code stores `self.angle`), and the two pole positions. -/
structure Ferrite where
  position : ℝ × ℝ
  length : ℕ
  width : ℕ
  angle : ℝ
  north : ℝ × ℝ
  south : ℝ × ℝ

/-- `FerriteDipole.__init__` (`main.py` lines 226-237): angle starts at
`0`, the north pole starts at `(x, y - length/2)` and the south pole at
`(x, y + length/2)`. -/
def mkFerrite (position : ℝ × ℝ) (length : ℕ) (width : ℕ) : Ferrite :=
  ⟨position, length, width, 0,
   (position.1, position.2 - (length : ℝ) / 2),
   (position.1, position.2 + (length : ℝ) / 2)⟩

/-- `math.radians`. -/
def radiansOf (deg : ℝ) : ℝ := deg * (Real.pi / 180)

/-- `math.degrees`. -/
def degreesOf (rad : ℝ) : ℝ := rad * (180 / Real.pi)

/-- The sample offsets `range(-int(length/2), int(length/2)+1, 2)` of
`FerriteDipole.update_moment` (`main.py` line 243). -/
def sampleOffsets (L : ℕ) : List ℤ :=
  (List.range (L / 2 + 1)).map (fun k : ℕ => -((L / 2 : ℕ) : ℤ) + 2 * (k : ℤ))

/-- A sample point of the ferrite's body at offset `r` (`main.py` lines
244-245). -/
def samplePoint (f : Ferrite) (r : ℤ) : ℝ × ℝ :=
  (f.position.1 + (r : ℝ) * Real.cos (radiansOf f.angle),
   f.position.2 + (r : ℝ) * Real.sin (radiansOf f.angle))

/-- All sample points of the ferrite's body. -/
def samplePoints (f : Ferrite) : List (ℝ × ℝ) :=
  (sampleOffsets f.length).map (samplePoint f)

/-- Contribution of one pole of signed strength `s` to the force on a
sample point (`main.py` lines 249-257), `none` signalling the early
`return` when the sample point coincides with the pole. -/
def poleForce (pt pole : ℝ × ℝ) (s : ℝ) (acc : ℝ × ℝ) : Option (ℝ × ℝ) :=
  let dx := pole.1 - pt.1
  let dy := pole.2 - pt.2
  if dx = 0 ∧ dy = 0 then none
  else
    let distance := Real.sqrt (dx ^ 2 + dy ^ 2)
    let force := s / distance ^ 2
    let a := atan2 dy dx
    some (acc.1 + force * Real.cos a, acc.2 + force * Real.sin a)

/-- The inner magnet loop of `FerriteDipole.update_moment` (`main.py`
lines 246-257): the south pole gets signed strength `+strength` and the
north pole `-strength`, exactly via the code's `pole == magnet.south`
comparison. -/
def magnetForce (pt : ℝ × ℝ) (m : Magnet) (st : Option (ℝ × ℝ)) : Option (ℝ × ℝ) :=
  ([m.south, m.north]).foldl (fun st2 pole =>
    st2.bind (fun acc =>
      poleForce pt pole (if pole = m.south then m.strength else -m.strength) acc)) st

/-- The accumulated `(force_x, force_y)` of `FerriteDipole.update_moment`
(`main.py` lines 241-257), `none` when the early `return` fires. -/
def momentForce (f : Ferrite) (magnets : List Magnet) : Option (ℝ × ℝ) :=
  (samplePoints f).foldl
    (fun st pt => magnets.foldl (fun st2 m => magnetForce pt m st2) st) (some (0, 0))

/-- `FerriteDipole.update_moment` (`main.py` lines 239-270): on the early
return the ferrite is left unchanged; otherwise the angle is set to
`degrees (atan2 force_y force_x)` and the poles are recomputed at
`position ± (length/2) · (cos a, sin a)`. -/
def update_moment (f : Ferrite) (magnets : List Magnet) : Ferrite :=
  match momentForce f magnets with
  | none => f
  | some fc =>
    let a := atan2 fc.2 fc.1
    { f with
        angle := degreesOf a
        north := (f.position.1 + ((f.length : ℝ) / 2) * Real.cos a,
                  f.position.2 + ((f.length : ℝ) / 2) * Real.sin a)
        south := (f.position.1 - ((f.length : ℝ) / 2) * Real.cos a,
                  f.position.2 - ((f.length : ℝ) / 2) * Real.sin a) }

/-- Spec-form force of one pole of signed strength `s` on a sample point,
following the words of the specification: `s / distance²` projected along
the unit vector from the sample point toward the pole. -/
def specPoleForce (pt pole : ℝ × ℝ) (s : ℝ) : ℝ × ℝ :=
  let dx := pole.1 - pt.1
  let dy := pole.2 - pt.2
  let d2 := dx ^ 2 + dy ^ 2
  ((s / d2) * (dx / Real.sqrt d2), (s / d2) * (dy / Real.sqrt d2))

/-- Spec-form force on one sample point: the sum over every given magnet
of the south pole term (signed strength `+strength`) and the north pole
term (signed strength `-strength`). -/
def specSampleForce (pt : ℝ × ℝ) (magnets : List Magnet) : ℝ × ℝ :=
  (magnets.map (fun m =>
    specPoleForce pt m.south m.strength + specPoleForce pt m.north (-m.strength))).sum

/-- Spec-form total force: the sum of the sample forces over the entire
body. -/
def specMomentForce (f : Ferrite) (magnets : List Magnet) : ℝ × ℝ :=
  ((samplePoints f).map (fun pt => specSampleForce pt magnets)).sum

/-- A small ferrite used in witnesses: position `(0, 0)`, length `2`. -/
def testFerrite : Ferrite := mkFerrite (0, 0) 2 5

/-- A magnet whose south pole sits at `(1, 0)`, a sample point of
`testFerrite`. -/
def coincidentMagnet : Magnet := ⟨(1, 0), (5, 5), 10, 8, 12⟩

/-- State of the `Animation` driver of `three_magnet_simulation`
(`main.py` lines 280-295): the strengths of the three magnets (exact
rationals) and the two indices. -/
structure AnimState where
  strengths : List ℚ
  index : ℕ
  next : ℕ
deriving DecidableEq

/-- One frame of `Animation.draw` (`main.py` lines 287-295): transfer
`0.1` of strength from `magnets[index]` to `magnets[next]`; when the
donor's strength has reached `0` or below, clamp it to `0`, set the
receiver to `10`, and advance the index pair. -/
def animStep (s : AnimState) : AnimState :=
  let l1 := s.strengths.set s.index (s.strengths.getD s.index 0 - 1 / 10)
  let l2 := l1.set s.next (l1.getD s.next 0 + 1 / 10)
  if l2.getD s.index 0 ≤ 0 then
    ⟨(l2.set s.index 0).set s.next 10, s.next, (s.next + 1) % l2.length⟩
  else
    ⟨l2, s.index, s.next⟩

/-- The starting state of the animation scenario: strengths `(10, 0, 0)`,
transfer pointer `(index, next) = (0, 1)`. -/
def animStart : AnimState := ⟨[10, 0, 0], 0, 1⟩

theorem poleStep_eq (point : ℝ × ℝ) (m : Magnet) (acc : ℝ × ℝ) (ip : ℕ × (ℝ × ℝ)) :
    poleStep point m acc ip
      = acc + skipTerm point ip.2 (if ip.1 = 0 then -m.strength else m.strength) := by
  unfold poleStep skipTerm
  by_cases h : (point.1 - ip.2.1) ^ 2 + (point.2 - ip.2.2) ^ 2 = 0
  · simp [h]
  · simp only [h, if_neg h, if_false]
    unfold specPoleField
    simp only [Prod.ext_iff, Prod.fst_add, Prod.snd_add]
    constructor <;> ring_nf

theorem magnet_fold_eq (point : ℝ × ℝ) (m : Magnet) (acc : ℝ × ℝ) :
    (([m.south, m.north]).enum).foldl (poleStep point m) acc
      = acc + magnetTermSkip point m := by
  have h : ([m.south, m.north]).enum = [(0, m.south), (1, m.north)] := rfl
  rw [h]
  simp only [List.foldl_cons, List.foldl_nil, poleStep_eq]
  unfold magnetTermSkip
  simp [add_assoc]

theorem fieldComponents_eq_specSkipSum (point : ℝ × ℝ) (magnets : List Magnet) :
    fieldComponents point magnets = specSkipSum point magnets := by
  unfold fieldComponents specSkipSum
  suffices h : ∀ (ms : List Magnet) (acc : ℝ × ℝ),
      ms.foldl (fun acc m => (([m.south, m.north]).enum).foldl (poleStep point m) acc) acc
        = acc + (ms.map (magnetTermSkip point)).sum by
    simpa using h magnets 0
  intro ms
  induction ms with
  | nil => intro acc; simp
  | cons m tl ih =>
    intro acc
    simp only [List.foldl_cons, List.map_cons, List.sum_cons]
    rw [magnet_fold_eq, ih, add_assoc]

theorem skipTerm_eq_specPoleField (point pole : ℝ × ℝ) (s : ℝ) :
    skipTerm point pole s = specPoleField point pole s := by
  unfold skipTerm
  by_cases h : (point.1 - pole.1) ^ 2 + (point.2 - pole.2) ^ 2 = 0
  · simp only [h, if_pos h]
    unfold specPoleField
    simp [h]
  · simp [h]

/-- Claim C1: for every query point and every list of magnets,
`calculate_field_direction` returns `atan2 Sy Sx` where `(Sx, Sy)` is the
sum, over the south pole (signed strength `-strength`) and north pole
(signed strength `+strength`) of every listed magnet, of the signed
strength over the squared distance scaled unit vectors pointing from the
pole toward the query point. -/
theorem calculate_field_direction_eq_atan2_specFieldSum
    (point : ℝ × ℝ) (magnets : List Magnet) :
    calculate_field_direction point magnets
      = atan2 (specFieldSum point magnets).2 (specFieldSum point magnets).1 := by
  have h : fieldComponents point magnets = specFieldSum point magnets := by
    rw [fieldComponents_eq_specSkipSum]
    unfold specSkipSum specFieldSum magnetTermSkip
    simp [skipTerm_eq_specPoleField]
  unfold calculate_field_direction
  rw [h]

/-- Claim C7: in `calculate_field_direction`, a pole at squared distance
zero from the query point contributes nothing (its term is skipped) while
the other poles still contribute: the accumulated components equal the sum
of the per-pole terms in which a zero-distance pole's term is replaced by
zero; in particular a magnet both of whose poles coincide with the query
point leaves the result unchanged. -/
theorem field_direction_skips_zero_distance (point : ℝ × ℝ) (magnets : List Magnet) :
    fieldComponents point magnets = specSkipSum point magnets ∧
    (∀ m0 : Magnet, m0.south = point → m0.north = point →
      calculate_field_direction point (m0 :: magnets)
        = calculate_field_direction point magnets) := by
  refine ⟨fieldComponents_eq_specSkipSum point magnets, ?_⟩
  intro m0 hs hn
  unfold calculate_field_direction
  rw [fieldComponents_eq_specSkipSum, fieldComponents_eq_specSkipSum]
  have hterm : magnetTermSkip point m0 = 0 := by
    unfold magnetTermSkip skipTerm
    rw [hs, hn]
    simp
  unfold specSkipSum
  simp [hterm]

/-- Witness for C7: a magnet both of whose poles sit at the query point
`(3, 4)` contributes nothing to the field direction there. -/
theorem field_direction_skips_zero_distance_witness :
    calculate_field_direction (3, 4) [degenerateMagnet]
      = calculate_field_direction (3, 4) [] :=
  (field_direction_skips_zero_distance (3, 4) []).2 degenerateMagnet rfl rfl

theorem traceAux_ne_nil (magnets : List Magnet) (offset : ℝ) (n : ℕ) (p : ℝ × ℝ) :
    traceAux magnets offset n p ≠ [] := by
  cases n with
  | zero => simp [traceAux]
  | succ k =>
    unfold traceAux
    by_cases h : validate_field_position p magnets <;> simp [h]

theorem traceAux_head (magnets : List Magnet) (offset : ℝ) (n : ℕ) (p : ℝ × ℝ) :
    (traceAux magnets offset n p).head? = some p := by
  cases n with
  | zero => simp [traceAux]
  | succ k =>
    unfold traceAux
    by_cases h : validate_field_position p magnets <;> simp [h]

theorem traceAux_dropLast_valid (magnets : List Magnet) (offset : ℝ) (fuel : ℕ) (p : ℝ × ℝ) :
    ∀ q ∈ (traceAux magnets offset fuel p).dropLast, validate_field_position q magnets := by
  induction fuel generalizing p with
  | zero => simp [traceAux]
  | succ n ih =>
    unfold traceAux
    by_cases h : validate_field_position p magnets
    · simp only [h, if_true]
      intro q hq
      rcases hrest : traceAux magnets offset n (stepPoint magnets offset p) with _ | ⟨a, tl⟩
      · exact absurd hrest (traceAux_ne_nil magnets offset n (stepPoint magnets offset p))
      · rw [hrest, List.dropLast_cons₂] at hq
        rcases List.mem_cons.mp hq with hq | hq
        · exact hq ▸ h
        · have := ih (stepPoint magnets offset p) q
          rw [hrest] at this
          exact this hq
    · simp [h]

theorem traceAux_chain (magnets : List Magnet) (offset : ℝ) (fuel : ℕ) (p : ℝ × ℝ) :
    List.Chain' (fun a b => b = stepPoint magnets offset a) (traceAux magnets offset fuel p) := by
  induction fuel generalizing p with
  | zero => simp [traceAux]
  | succ n ih =>
    unfold traceAux
    by_cases h : validate_field_position p magnets
    · simp only [h, if_true]
      rw [List.chain'_cons']
      refine ⟨?_, ih (stepPoint magnets offset p)⟩
      intro y hy
      rw [traceAux_head] at hy
      simpa using hy.symm
    · simp [h]

theorem dist_sq_lt_iff (a b c : ℝ) :
    a ^ 2 + b ^ 2 < c ^ 2 ↔ Real.sqrt (a ^ 2 + b ^ 2) < |c| := by
  rw [← Real.sqrt_sq_eq_abs, Real.sqrt_lt_sqrt_iff (by positivity)]

theorem validate_iff_dist (p : ℝ × ℝ) (magnets : List Magnet) :
    validate_field_position p magnets ↔
      in_bounds p ∧ ∀ m ∈ magnets,
        |m.radius - 1| ≤ distPt p m.south ∧ |m.radius - 1| ≤ distPt p m.north := by
  unfold validate_field_position near_pole
  constructor
  · rintro ⟨hb, hnp⟩
    refine ⟨hb, ?_⟩
    intro m hm
    constructor
    · rw [← not_lt]
      intro hlt
      exact hnp ⟨m, hm, m.south, by simp, (dist_sq_lt_iff _ _ _).mpr hlt⟩
    · rw [← not_lt]
      intro hlt
      exact hnp ⟨m, hm, m.north, by simp, (dist_sq_lt_iff _ _ _).mpr hlt⟩
  · rintro ⟨hb, hfar⟩
    refine ⟨hb, ?_⟩
    rintro ⟨m, hm, pole, hpole, hlt⟩
    rcases List.mem_cons.mp hpole with hp | hp
    · exact absurd ((dist_sq_lt_iff _ _ _).mp (hp ▸ hlt)) (not_lt.mpr (hfar m hm).1)
    · have hp' : pole = m.north := by simpa using hp
      exact absurd ((dist_sq_lt_iff _ _ _).mp (hp' ▸ hlt)) (not_lt.mpr (hfar m hm).2)

/-- Claim C2 (amended): during a field-line trace, validity is re-checked
before every step including the very first seed point: every non-final
point of a trace passed the check, a point failing the check ends the
trace at once, a point passing the check is stepped from, and the check
fails exactly when the point is out of the rendering bounds or at
distance strictly less than `|radius - 1|` (the absolute value being the
amendment, visible when a magnet's radius is below `1`) from some pole of
some supplied magnet; a resulting polyline with fewer than two points is
not drawn. -/
theorem trace_termination_spec (magnets : List Magnet) (offset : ℝ) (fuel : ℕ) (p : ℝ × ℝ) :
    (∀ q ∈ (traceAux magnets offset fuel p).dropLast, validate_field_position q magnets)
    ∧ (¬ validate_field_position p magnets → traceAux magnets offset fuel p = [p])
    ∧ (validate_field_position p magnets →
        traceAux magnets offset (fuel + 1) p
          = p :: traceAux magnets offset fuel (stepPoint magnets offset p))
    ∧ (validate_field_position p magnets ↔
        in_bounds p ∧ ∀ m ∈ magnets,
          |m.radius - 1| ≤ distPt p m.south ∧ |m.radius - 1| ≤ distPt p m.north)
    ∧ (∀ (m : Magnet) (poly : List (ℝ × ℝ)),
        poly ∈ draw_field_lines m magnets fuel → 1 < poly.length) := by
  refine ⟨traceAux_dropLast_valid magnets offset fuel p, ?_, ?_, validate_iff_dist p magnets, ?_⟩
  · intro h
    cases fuel with
    | zero => rfl
    | succ n =>
      unfold traceAux
      rw [if_neg h]
  · intro h
    show (if validate_field_position p magnets then
        p :: traceAux magnets offset fuel (stepPoint magnets offset p)
      else [p]) = p :: traceAux magnets offset fuel (stepPoint magnets offset p)
    rw [if_pos h]
  · intro m poly hmem
    have := (List.mem_filter.mp hmem).2
    simpa using this

/-- Witness for C2: the point `(-5, 0)` is out of bounds, so a trace from
it stops at once. -/
theorem trace_termination_spec_witness :
    traceAux [] 0 1 ((-5 : ℝ), 0) = [((-5 : ℝ), 0)] := by
  apply (trace_termination_spec [] 0 1 ((-5 : ℝ), 0)).2.1
  intro hv
  have hb : (0 : ℝ) ≤ -5 := hv.1.1
  norm_num at hb

/-- Counterexample to claim C2 as stated: for a magnet of radius `0` the
code's proximity check `distance² < (radius - 1)²` fires for the in-bounds
point `(100, 100)` at distance `1/2` from the south pole, and the trace
stops there, although the point does not lie strictly within distance
`radius - 1 = -1` of any pole of the supplied magnets. -/
theorem trace_stop_radius_zero_counterexample :
    in_bounds ((100 : ℝ), (100 : ℝ))
    ∧ ¬ distPt (100, 100) zeroRadiusMagnet.south < zeroRadiusMagnet.radius - 1
    ∧ ¬ distPt (100, 100) zeroRadiusMagnet.north < zeroRadiusMagnet.radius - 1
    ∧ traceAux [zeroRadiusMagnet] 0 1 (100, 100) = [(100, 100)] := by
  have hnonneg1 : (0 : ℝ) ≤ distPt (100, 100) zeroRadiusMagnet.south := Real.sqrt_nonneg _
  have hnonneg2 : (0 : ℝ) ≤ distPt (100, 100) zeroRadiusMagnet.north := Real.sqrt_nonneg _
  have hrad : zeroRadiusMagnet.radius - 1 = -1 := by
    norm_num [zeroRadiusMagnet]
  refine ⟨?_, ?_, ?_, ?_⟩
  · norm_num [in_bounds]
  · rw [hrad]; intro h; linarith
  · rw [hrad]; intro h; linarith
  · unfold traceAux
    rw [if_neg]
    rintro ⟨-, hnp⟩
    apply hnp
    refine ⟨zeroRadiusMagnet, by simp, zeroRadiusMagnet.south, by simp, ?_⟩
    norm_num [zeroRadiusMagnet]


theorem distPt_stepPoint (magnets : List Magnet) (offset : ℝ) (p : ℝ × ℝ) :
    distPt p (stepPoint magnets offset p) = 1 := by
  unfold distPt stepPoint FIELD_RESOLUTION
  have h : (p.1 - (p.1 + 1 * Real.cos (calculate_field_direction p magnets + offset))) ^ 2
      + (p.2 - (p.2 + 1 * Real.sin (calculate_field_direction p magnets + offset))) ^ 2
      = Real.sin (calculate_field_direction p magnets + offset) ^ 2
        + Real.cos (calculate_field_direction p magnets + offset) ^ 2 := by
    ring
  rw [h, Real.sin_sq_add_cos_sq, Real.sqrt_one]

/-- Claim C4: field lines are seeded at `field_lines` equally spaced
angles (`i · 2π/field_lines`) on the circle of the emitting magnet's own
radius, independently around the north pole with polarity offset `0` and
the south pole with polarity offset `π`; every produced polyline is a
trace from such a seed, consecutive trace points are related by exactly
one step, and each step moves the current point by exactly the fixed
resolution distance `1` along `(cos, sin)` of the field direction at the
current point plus the polarity offset. -/
theorem draw_field_lines_seed_step_spec
    (m : Magnet) (magnets : List Magnet) (offset : ℝ) (fuel : ℕ) :
    FIELD_RESOLUTION = 1
    ∧ (∀ (pole : ℝ × ℝ) (i : ℕ), seedPoint m pole i
        = (pole.1 + m.radius * Real.cos (2 * Real.pi * i / m.field_lines),
           pole.2 + m.radius * Real.sin (2 * Real.pi * i / m.field_lines)))
    ∧ (∀ poly : List (ℝ × ℝ), poly ∈ draw_field_lines m magnets fuel ↔
        1 < poly.length ∧ ∃ po ∈ [(m.north, (0 : ℝ)), (m.south, Real.pi)],
          ∃ i < m.field_lines, poly = traceAux magnets po.2 fuel (seedPoint m po.1 i))
    ∧ (∀ p : ℝ × ℝ, List.Chain' (fun a b => b = stepPoint magnets offset a)
        (traceAux magnets offset fuel p))
    ∧ (∀ p : ℝ × ℝ, stepPoint magnets offset p
        = (p.1 + FIELD_RESOLUTION * Real.cos (calculate_field_direction p magnets + offset),
           p.2 + FIELD_RESOLUTION * Real.sin (calculate_field_direction p magnets + offset))
          ∧ distPt p (stepPoint magnets offset p) = 1) := by
  refine ⟨rfl, ?_, ?_, fun p => traceAux_chain magnets offset fuel p,
    fun p => ⟨rfl, distPt_stepPoint magnets offset p⟩⟩
  · intro pole i
    have h : (i : ℝ) * (2 * Real.pi / (m.field_lines : ℝ))
        = 2 * Real.pi * i / m.field_lines := by
      ring
    simp only [seedPoint]
    rw [h]
  · intro poly
    unfold draw_field_lines
    rw [List.mem_filter]
    simp only [List.mem_flatMap, List.mem_map, List.mem_range, decide_eq_true_eq]
    constructor
    · rintro ⟨⟨po, hpo, i, hi, hpoly⟩, hlen⟩
      exact ⟨hlen, po, hpo, i, hi, hpoly.symm⟩
    · rintro ⟨hlen, po, hpo, i, hi, hpoly⟩
      exact ⟨⟨po, hpo, i, hi, hpoly.symm⟩, hlen⟩

theorem onMagnets_append_inactive (ms : List Magnet) (m0 : Magnet) (h : m0.strength ≤ 0) :
    onMagnets (ms ++ [m0]) = onMagnets ms := by
  unfold onMagnets
  rw [List.filter_append]
  have h0 : List.filter (fun m => decide (0 < m.strength)) [m0] = [] := by
    simp [not_lt.mpr h]
  rw [h0, List.append_nil]

/-- Claim C3 (amended): magnets with non-positive strength are excluded
from the per-frame field-line pass entirely: the manager traces with the
active magnets as both the source list and the obstacle list, so an
inactive magnet neither contributes field, nor emits lines, nor
terminates lines — appending an inactive magnet to the registry leaves
the drawn field lines and every validity check unchanged. -/
theorem manager_ignores_inactive (ms : List Magnet) (m0 : Magnet) (fuel : ℕ)
    (h : m0.strength ≤ 0) :
    managerFieldLines (ms ++ [m0]) fuel = managerFieldLines ms fuel
    ∧ (∀ m : Magnet, m ∈ onMagnets (ms ++ [m0]) ↔ m ∈ ms ∧ 0 < m.strength)
    ∧ (∀ p : ℝ × ℝ, validate_field_position p (onMagnets (ms ++ [m0]))
        ↔ validate_field_position p (onMagnets ms)) := by
  have he := onMagnets_append_inactive ms m0 h
  refine ⟨?_, ?_, ?_⟩
  · unfold managerFieldLines
    rw [he]
  · intro m
    rw [he]
    unfold onMagnets
    rw [List.mem_filter]
    simp
  · intro p
    rw [he]

/-- Witness for C3: appending the inactive magnet to a registry holding
one active magnet changes nothing about the drawn field lines. -/
theorem manager_ignores_inactive_witness :
    managerFieldLines ([activeMagnet] ++ [inactiveMagnet]) 3
      = managerFieldLines [activeMagnet] 3 :=
  (manager_ignores_inactive [activeMagnet] inactiveMagnet 3 (by norm_num [inactiveMagnet])).1

/-- Counterexample to claim C3 as stated: the manager passes only the
active magnets as the obstacle list, so the point `(200, 200)`, which
sits on the south pole of the inactive magnet (well within `radius - 1`),
still validates against the manager's list, and a trace reaching it keeps
going instead of terminating. -/
theorem inactive_obstacle_counterexample :
    onMagnets [activeMagnet, inactiveMagnet] = [activeMagnet]
    ∧ inactiveMagnet.strength = 0
    ∧ distPt (200, 200) inactiveMagnet.south < inactiveMagnet.radius - 1
    ∧ validate_field_position (200, 200) (onMagnets [activeMagnet, inactiveMagnet])
    ∧ (traceAux (onMagnets [activeMagnet, inactiveMagnet]) 0 1 (200, 200)).length = 2 := by
  have hlist : onMagnets [activeMagnet, inactiveMagnet] = [activeMagnet] := by
    unfold onMagnets
    simp only [List.filter]
    norm_num [activeMagnet, inactiveMagnet]
  have hval : validate_field_position (200, 200) (onMagnets [activeMagnet, inactiveMagnet]) := by
    rw [hlist]
    constructor
    · norm_num [in_bounds]
    · rintro ⟨m, hm, pole, hpole, hlt⟩
      have hma : m = activeMagnet := by simpa using hm
      subst hma
      rcases List.mem_cons.mp hpole with hp | hp
      · rw [hp] at hlt
        norm_num [activeMagnet] at hlt
      · have hp' : pole = activeMagnet.north := by simpa using hp
        rw [hp'] at hlt
        norm_num [activeMagnet] at hlt
  refine ⟨hlist, rfl, ?_, hval, ?_⟩
  · unfold distPt
    norm_num [inactiveMagnet]
  · show (if validate_field_position (200, 200) (onMagnets [activeMagnet, inactiveMagnet]) then
        ((200 : ℝ), (200 : ℝ)) :: traceAux (onMagnets [activeMagnet, inactiveMagnet]) 0 0
          (stepPoint (onMagnets [activeMagnet, inactiveMagnet]) 0 (200, 200))
      else [(200, 200)]).length = 2
    rw [if_pos hval]
    simp [traceAux]

theorem momentForce_nil (f : Ferrite) : momentForce f [] = some (0, 0) := by
  unfold momentForce
  have h : ∀ (l : List (ℝ × ℝ)) (st : Option (ℝ × ℝ)),
      l.foldl (fun st2 pt =>
        List.foldl (fun st3 m => magnetForce pt m st3) st2 ([] : List Magnet)) st = st := by
    intro l
    induction l with
    | nil => intro st; rfl
    | cons a tl ih =>
      intro st
      rw [List.foldl_cons, List.foldl_nil]
      exact ih st
  exact h _ _

theorem update_moment_eq_of_some (f : Ferrite) (magnets : List Magnet) (fc : ℝ × ℝ)
    (h : momentForce f magnets = some fc) :
    update_moment f magnets
      = { f with
            angle := degreesOf (atan2 fc.2 fc.1)
            north := (f.position.1 + ((f.length : ℝ) / 2) * Real.cos (atan2 fc.2 fc.1),
                      f.position.2 + ((f.length : ℝ) / 2) * Real.sin (atan2 fc.2 fc.1))
            south := (f.position.1 - ((f.length : ℝ) / 2) * Real.cos (atan2 fc.2 fc.1),
                      f.position.2 - ((f.length : ℝ) / 2) * Real.sin (atan2 fc.2 fc.1)) } := by
  unfold update_moment
  rw [h]

theorem radiansOf_degreesOf (x : ℝ) : radiansOf (degreesOf x) = x := by
  unfold radiansOf degreesOf
  field_simp

/-- Claim C9: in the constructed initial state and after every
`update_moment` call that completes an orientation update (the
accumulation did not abort), the ferrite's north and south poles are
exactly `length` apart and their midpoint is exactly `position`. -/
theorem ferrite_pole_invariant :
    (∀ (pos : ℝ × ℝ) (L w : ℕ),
      distPt (mkFerrite pos L w).north (mkFerrite pos L w).south = L
      ∧ midPt (mkFerrite pos L w).north (mkFerrite pos L w).south = pos)
    ∧ (∀ (f : Ferrite) (magnets : List Magnet), momentForce f magnets ≠ none →
      distPt (update_moment f magnets).north (update_moment f magnets).south
        = (update_moment f magnets).length
      ∧ midPt (update_moment f magnets).north (update_moment f magnets).south
        = (update_moment f magnets).position) := by
  constructor
  · intro pos L w
    constructor
    · unfold distPt mkFerrite
      have h : (pos.1 - pos.1) ^ 2 + (pos.2 - (L : ℝ) / 2 - (pos.2 + (L : ℝ) / 2)) ^ 2
          = (L : ℝ) ^ 2 := by
        ring
      rw [h, Real.sqrt_sq (Nat.cast_nonneg L)]
    · unfold midPt mkFerrite
      rw [Prod.ext_iff]
      constructor <;> ring_nf
  · intro f magnets hne
    rcases hopt : momentForce f magnets with _ | fc
    · exact absurd hopt hne
    · rw [update_moment_eq_of_some f magnets fc hopt]
      constructor
      · unfold distPt
        have h : ((f.position.1 + ((f.length : ℝ) / 2) * Real.cos (atan2 fc.2 fc.1))
              - (f.position.1 - ((f.length : ℝ) / 2) * Real.cos (atan2 fc.2 fc.1))) ^ 2
            + ((f.position.2 + ((f.length : ℝ) / 2) * Real.sin (atan2 fc.2 fc.1))
              - (f.position.2 - ((f.length : ℝ) / 2) * Real.sin (atan2 fc.2 fc.1))) ^ 2
            = (f.length : ℝ) ^ 2
              * (Real.cos (atan2 fc.2 fc.1) ^ 2 + Real.sin (atan2 fc.2 fc.1) ^ 2) := by
          ring
        rw [h, Real.cos_sq_add_sin_sq, mul_one, Real.sqrt_sq (Nat.cast_nonneg f.length)]
      · unfold midPt
        rw [Prod.ext_iff]
        constructor <;> ring_nf

/-- Witness for C9: updating the test ferrite against the empty magnet
list completes, and the resulting poles are `length` apart and centred on
`position`. -/
theorem ferrite_pole_invariant_witness :
    distPt (update_moment testFerrite []).north (update_moment testFerrite []).south
      = (update_moment testFerrite []).length
    ∧ midPt (update_moment testFerrite []).north (update_moment testFerrite []).south
      = (update_moment testFerrite []).position :=
  ferrite_pole_invariant.2 testFerrite [] (by rw [momentForce_nil]; simp)

/-- Claim C10 (amended): after every completed `update_moment` the poles
satisfy `north/south = position ± (length/2)·(cos θ, sin θ)` for the
updated orientation `θ`; in the initial state, however, the stored
orientation is `0` while the poles sit at `position ∓ (0, length/2)`,
which matches the `(cos, sin)` formula only at angle `-π/2`, not at the
stored `0`. -/
theorem ferrite_pole_formula :
    (∀ (pos : ℝ × ℝ) (L w : ℕ),
      (mkFerrite pos L w).angle = 0
      ∧ (mkFerrite pos L w).north
          = (pos.1 + ((L : ℝ) / 2) * Real.cos (-(Real.pi / 2)),
             pos.2 + ((L : ℝ) / 2) * Real.sin (-(Real.pi / 2)))
      ∧ (mkFerrite pos L w).south
          = (pos.1 - ((L : ℝ) / 2) * Real.cos (-(Real.pi / 2)),
             pos.2 - ((L : ℝ) / 2) * Real.sin (-(Real.pi / 2))))
    ∧ (∀ (f : Ferrite) (magnets : List Magnet), momentForce f magnets ≠ none →
      (update_moment f magnets).north
        = ((update_moment f magnets).position.1
            + (((update_moment f magnets).length : ℝ) / 2)
              * Real.cos (radiansOf (update_moment f magnets).angle),
           (update_moment f magnets).position.2
            + (((update_moment f magnets).length : ℝ) / 2)
              * Real.sin (radiansOf (update_moment f magnets).angle))
      ∧ (update_moment f magnets).south
        = ((update_moment f magnets).position.1
            - (((update_moment f magnets).length : ℝ) / 2)
              * Real.cos (radiansOf (update_moment f magnets).angle),
           (update_moment f magnets).position.2
            - (((update_moment f magnets).length : ℝ) / 2)
              * Real.sin (radiansOf (update_moment f magnets).angle))) := by
  constructor
  · intro pos L w
    refine ⟨rfl, ?_, ?_⟩
    · unfold mkFerrite
      rw [Prod.ext_iff]
      refine ⟨by simp, ?_⟩
      simp only [Real.sin_neg, Real.sin_pi_div_two]
      ring
    · unfold mkFerrite
      rw [Prod.ext_iff]
      refine ⟨by simp, ?_⟩
      simp only [Real.sin_neg, Real.sin_pi_div_two]
      ring
  · intro f magnets hne
    rcases hopt : momentForce f magnets with _ | fc
    · exact absurd hopt hne
    · rw [update_moment_eq_of_some f magnets fc hopt]
      constructor <;> simp [radiansOf_degreesOf]

/-- Witness for C10: updating the test ferrite against the empty magnet
list completes, and the resulting poles match the orientation formula. -/
theorem ferrite_pole_formula_witness :
    (update_moment testFerrite []).north
      = ((update_moment testFerrite []).position.1
          + (((update_moment testFerrite []).length : ℝ) / 2)
            * Real.cos (radiansOf (update_moment testFerrite []).angle),
         (update_moment testFerrite []).position.2
          + (((update_moment testFerrite []).length : ℝ) / 2)
            * Real.sin (radiansOf (update_moment testFerrite []).angle))
    ∧ (update_moment testFerrite []).south
      = ((update_moment testFerrite []).position.1
          - (((update_moment testFerrite []).length : ℝ) / 2)
            * Real.cos (radiansOf (update_moment testFerrite []).angle),
         (update_moment testFerrite []).position.2
          - (((update_moment testFerrite []).length : ℝ) / 2)
            * Real.sin (radiansOf (update_moment testFerrite []).angle)) :=
  ferrite_pole_formula.2 testFerrite [] (by rw [momentForce_nil]; simp)

/-- Counterexample to claim C10 as stated: in the constructed initial
state the orientation starts at `0`, yet the north pole is at
`(x, y - length/2)` and not at `position + (length/2)·(cos 0, sin 0)
= (x + length/2, y)`. -/
theorem initial_orientation_counterexample :
    (mkFerrite (0, 0) 80 5).angle = 0
    ∧ (mkFerrite (0, 0) 80 5).north
        ≠ ((0 : ℝ) + (((80 : ℕ) : ℝ) / 2)
              * Real.cos (radiansOf (mkFerrite (0, 0) 80 5).angle),
           (0 : ℝ) + (((80 : ℕ) : ℝ) / 2)
              * Real.sin (radiansOf (mkFerrite (0, 0) 80 5).angle)) := by
  refine ⟨rfl, ?_⟩
  intro h
  have h1 := congrArg Prod.fst h
  simp [mkFerrite, radiansOf] at h1
  norm_num at h1

theorem poleForce_self (pt : ℝ × ℝ) (s : ℝ) (acc : ℝ × ℝ) :
    poleForce pt pt s acc = none := by
  simp [poleForce]

theorem magnetForce_none (pt : ℝ × ℝ) (m : Magnet) : magnetForce pt m none = none := rfl

theorem magnetForce_coincident (pt : ℝ × ℝ) (m : Magnet)
    (h : pt = m.south ∨ pt = m.north) (st : Option (ℝ × ℝ)) :
    magnetForce pt m st = none := by
  cases st with
  | none => exact magnetForce_none pt m
  | some acc =>
    unfold magnetForce
    rw [List.foldl_cons, List.foldl_cons, List.foldl_nil]
    rcases h with h | h
    · have h1 : ((some acc).bind fun a =>
          poleForce pt m.south (if m.south = m.south then m.strength else -m.strength) a)
          = none := by
        show poleForce pt m.south (if m.south = m.south then m.strength else -m.strength) acc
          = none
        rw [← h, poleForce_self]
      rw [h1]
      rfl
    · cases hst : ((some acc).bind fun a =>
          poleForce pt m.south (if m.south = m.south then m.strength else -m.strength) a) with
      | none => rfl
      | some b =>
        show poleForce pt m.north (if m.north = m.south then m.strength else -m.strength) b
          = none
        rw [← h, poleForce_self]

theorem foldl_magnetForce_none (pt : ℝ × ℝ) (ms : List Magnet) :
    ms.foldl (fun st2 m => magnetForce pt m st2) none = none := by
  induction ms with
  | nil => rfl
  | cons a tl ih =>
    rw [List.foldl_cons, magnetForce_none]
    exact ih

theorem foldl_magnetForce_coincident (pt : ℝ × ℝ) (ms : List Magnet) (m : Magnet)
    (hm : m ∈ ms) (h : pt = m.south ∨ pt = m.north) (st : Option (ℝ × ℝ)) :
    ms.foldl (fun st2 mm => magnetForce pt mm st2) st = none := by
  induction ms generalizing st with
  | nil => cases hm
  | cons a tl ih =>
    rw [List.foldl_cons]
    rcases List.mem_cons.mp hm with ha | ha
    · rw [← ha, magnetForce_coincident pt m h st]
      exact foldl_magnetForce_none pt tl
    · exact ih ha _

theorem foldl_samples_from_none (magnets : List Magnet) (l : List (ℝ × ℝ)) :
    l.foldl (fun st2 q => magnets.foldl (fun st3 mm => magnetForce q mm st3) st2) none
      = none := by
  induction l with
  | nil => rfl
  | cons a tl ih =>
    rw [List.foldl_cons, foldl_magnetForce_none]
    exact ih

theorem momentForce_coincident (f : Ferrite) (magnets : List Magnet)
    (h : ∃ pt ∈ samplePoints f, ∃ m ∈ magnets, pt = m.south ∨ pt = m.north) :
    momentForce f magnets = none := by
  obtain ⟨pt, hpt, m, hm, hcoin⟩ := h
  unfold momentForce
  have hgen : ∀ (l : List (ℝ × ℝ)), pt ∈ l → ∀ st : Option (ℝ × ℝ),
      l.foldl (fun st2 q => magnets.foldl (fun st3 mm => magnetForce q mm st3) st2) st
        = none := by
    intro l
    induction l with
    | nil => intro hmem; cases hmem
    | cons a tl ih =>
      intro hmem st
      rw [List.foldl_cons]
      rcases List.mem_cons.mp hmem with ha | ha
      · rw [← ha, foldl_magnetForce_coincident pt magnets m hm hcoin st]
        exact foldl_samples_from_none magnets tl
      · exact ih ha _
  exact hgen (samplePoints f) hpt _

/-- Claim C8: if some sample point of the ferrite's body coincides exactly
with a pole of one of the given magnets, `update_moment` returns early
without dividing by zero, and the ferrite (in particular its orientation)
is left entirely unchanged by that call. -/
theorem update_moment_coincident_abort (f : Ferrite) (magnets : List Magnet)
    (h : ∃ pt ∈ samplePoints f, ∃ m ∈ magnets, pt = m.south ∨ pt = m.north) :
    update_moment f magnets = f := by
  have hn : momentForce f magnets = none := momentForce_coincident f magnets h
  unfold update_moment
  rw [hn]

/-- Witness for C8: the sample point `(1, 0)` of the test ferrite sits on
the south pole of `coincidentMagnet`, and the update leaves the ferrite
unchanged. -/
theorem update_moment_coincident_abort_witness :
    update_moment testFerrite [coincidentMagnet] = testFerrite := by
  apply update_moment_coincident_abort
  refine ⟨(1, 0), ?_, coincidentMagnet, by simp, Or.inl rfl⟩
  show ((1 : ℝ), (0 : ℝ)) ∈ samplePoints testFerrite
  simp only [samplePoints, testFerrite, mkFerrite, sampleOffsets, samplePoint, radiansOf,
    List.map_map, List.mem_map]
  refine ⟨1, ?_, ?_⟩
  · simp [List.range_succ]
  · simp [samplePoint, radiansOf]

theorem poleForce_eq_spec (pt pole : ℝ × ℝ) (s : ℝ) (acc : ℝ × ℝ) (h : pole ≠ pt) :
    poleForce pt pole s acc = some (acc + specPoleForce pt pole s) := by
  have hcond : ¬ (pole.1 - pt.1 = 0 ∧ pole.2 - pt.2 = 0) := by
    rintro ⟨h1, h2⟩
    exact h (Prod.ext_iff.mpr ⟨by linarith, by linarith⟩)
  have hz : (⟨pole.1 - pt.1, pole.2 - pt.2⟩ : ℂ) ≠ 0 := by
    intro hzero
    apply hcond
    have h1 := congrArg Complex.re hzero
    have h2 := congrArg Complex.im hzero
    simp at h1 h2
    exact ⟨h1, h2⟩
  have habs : Complex.abs ⟨pole.1 - pt.1, pole.2 - pt.2⟩
      = Real.sqrt ((pole.1 - pt.1) ^ 2 + (pole.2 - pt.2) ^ 2) := by
    rw [Complex.abs_apply, Complex.normSq_mk]
    have hsq : (pole.1 - pt.1) * (pole.1 - pt.1) + (pole.2 - pt.2) * (pole.2 - pt.2)
        = (pole.1 - pt.1) ^ 2 + (pole.2 - pt.2) ^ 2 := by
      ring
    rw [hsq]
  have hcos : Real.cos (atan2 (pole.2 - pt.2) (pole.1 - pt.1))
      = (pole.1 - pt.1) / Real.sqrt ((pole.1 - pt.1) ^ 2 + (pole.2 - pt.2) ^ 2) := by
    unfold atan2
    rw [Complex.cos_arg hz, habs]
  have hsin : Real.sin (atan2 (pole.2 - pt.2) (pole.1 - pt.1))
      = (pole.2 - pt.2) / Real.sqrt ((pole.1 - pt.1) ^ 2 + (pole.2 - pt.2) ^ 2) := by
    unfold atan2
    rw [Complex.sin_arg, habs]
  have hd2 : Real.sqrt ((pole.1 - pt.1) ^ 2 + (pole.2 - pt.2) ^ 2) ^ 2
      = (pole.1 - pt.1) ^ 2 + (pole.2 - pt.2) ^ 2 := Real.sq_sqrt (by positivity)
  simp only [poleForce, specPoleForce]
  rw [if_neg hcond, hcos, hsin, hd2]
  simp only [Option.some.injEq, Prod.ext_iff, Prod.fst_add, Prod.snd_add]
  constructor <;> ring_nf

theorem magnetForce_eq_spec (pt : ℝ × ℝ) (m : Magnet) (acc : ℝ × ℝ)
    (hs : m.south ≠ pt) (hn : m.north ≠ pt) (hd : m.south ≠ m.north) :
    magnetForce pt m (some acc)
      = some (acc + (specPoleForce pt m.south m.strength
          + specPoleForce pt m.north (-m.strength))) := by
  unfold magnetForce
  rw [List.foldl_cons, List.foldl_cons, List.foldl_nil]
  have h1 : ((some acc).bind fun a =>
      poleForce pt m.south (if m.south = m.south then m.strength else -m.strength) a)
      = some (acc + specPoleForce pt m.south m.strength) := by
    show poleForce pt m.south (if m.south = m.south then m.strength else -m.strength) acc
      = some (acc + specPoleForce pt m.south m.strength)
    rw [if_pos rfl, poleForce_eq_spec pt m.south m.strength acc hs]
  rw [h1]
  show poleForce pt m.north (if m.north = m.south then m.strength else -m.strength)
      (acc + specPoleForce pt m.south m.strength) = _
  rw [if_neg (Ne.symm hd), poleForce_eq_spec pt m.north (-m.strength) _ hn, add_assoc]

theorem foldl_magnets_eq_spec (pt : ℝ × ℝ) (ms : List Magnet) :
    (∀ m ∈ ms, m.south ≠ pt ∧ m.north ≠ pt ∧ m.south ≠ m.north) →
    ∀ acc : ℝ × ℝ,
    ms.foldl (fun st2 m => magnetForce pt m st2) (some acc)
      = some (acc + specSampleForce pt ms) := by
  induction ms with
  | nil =>
    intro _ acc
    simp [specSampleForce]
  | cons a tl ih =>
    intro h acc
    simp only [List.foldl_cons]
    obtain ⟨h1, h2, h3⟩ := h a (List.mem_cons_self a tl)
    rw [magnetForce_eq_spec pt a acc h1 h2 h3]
    rw [ih (fun m hm => h m (List.mem_cons_of_mem a hm)) _]
    unfold specSampleForce
    rw [List.map_cons, List.sum_cons, add_assoc]

theorem momentForce_eq_spec (f : Ferrite) (magnets : List Magnet)
    (hnc : ∀ pt ∈ samplePoints f, ∀ m ∈ magnets, m.south ≠ pt ∧ m.north ≠ pt)
    (hdist : ∀ m ∈ magnets, m.south ≠ m.north) :
    momentForce f magnets = some (specMomentForce f magnets) := by
  unfold momentForce specMomentForce
  have hgen : ∀ (l : List (ℝ × ℝ)),
      (∀ pt ∈ l, ∀ m ∈ magnets, m.south ≠ pt ∧ m.north ≠ pt) →
      ∀ acc : ℝ × ℝ,
      l.foldl (fun st pt => magnets.foldl (fun st2 m => magnetForce pt m st2) st) (some acc)
        = some (acc + (l.map (fun pt => specSampleForce pt magnets)).sum) := by
    intro l
    induction l with
    | nil =>
      intro _ acc
      simp
    | cons a tl ih =>
      intro hl acc
      simp only [List.foldl_cons]
      rw [foldl_magnets_eq_spec a magnets
        (fun m hm => ⟨(hl a (List.mem_cons_self a tl) m hm).1,
          (hl a (List.mem_cons_self a tl) m hm).2, hdist m hm⟩) acc]
      rw [ih (fun pt hpt m hm => hl pt (List.mem_cons_of_mem a hpt) m hm) _]
      rw [List.map_cons, List.sum_cons, add_assoc]
  have hfin := hgen (samplePoints f) hnc 0
  simpa using hfin

theorem sampleOffsets_head (L : ℕ) :
    (sampleOffsets L).head? = some (-((L : ℤ) / 2)) := by
  unfold sampleOffsets
  rw [List.range_succ_eq_map]
  simp [Int.ofNat_div]

theorem sampleOffsets_getLast (L : ℕ) :
    (sampleOffsets L).getLast? = some ((L : ℤ) / 2) := by
  unfold sampleOffsets
  rw [List.range_succ, List.map_append]
  simp only [List.map_cons, List.map_nil, List.getLast?_concat]
  have h : -(((L / 2 : ℕ) : ℤ)) + 2 * ((L / 2 : ℕ) : ℤ) = ((L / 2 : ℕ) : ℤ) := by
    ring
  rw [h]
  congr 1

theorem sampleOffsets_chain (L : ℕ) :
    List.Chain' (fun a b => b = a + 2) (sampleOffsets L) := by
  unfold sampleOffsets
  rw [List.chain'_map, List.chain'_range_succ]
  intro m hm
  push_cast
  ring

/-- Claim C5: for a ferrite of even length whose sample points avoid every
pole of the given (non-degenerate) magnets, `update_moment` samples the
body at offsets `-length/2, -length/2 + 2, ..., +length/2` along its long
axis, and sets the new orientation to `atan2` of the total force
accumulated over all sample points, where each pole contributes its
signed strength (`+strength` south, `-strength` north) over the squared
distance, projected along the unit vector from the sample point toward
the pole. -/
theorem update_moment_spec (f : Ferrite) (magnets : List Magnet)
    (hEven : 2 ∣ f.length)
    (hdist : ∀ m ∈ magnets, m.south ≠ m.north)
    (hnc : ∀ pt ∈ samplePoints f, ∀ m ∈ magnets, m.south ≠ pt ∧ m.north ≠ pt) :
    (sampleOffsets f.length).head? = some (-((f.length : ℤ) / 2))
    ∧ (sampleOffsets f.length).getLast? = some ((f.length : ℤ) / 2)
    ∧ List.Chain' (fun a b => b = a + 2) (sampleOffsets f.length)
    ∧ radiansOf ((update_moment f magnets).angle)
        = atan2 (specMomentForce f magnets).2 (specMomentForce f magnets).1 := by
  refine ⟨sampleOffsets_head f.length, sampleOffsets_getLast f.length,
    sampleOffsets_chain f.length, ?_⟩
  have hmf := momentForce_eq_spec f magnets hnc hdist
  rw [update_moment_eq_of_some f magnets _ hmf]
  exact radiansOf_degreesOf _

/-- Witness for C5: the test ferrite (length `2`) against an empty magnet
list satisfies all three hypotheses, and the specification of the sample
offsets and of the updated orientation holds for it. -/
theorem update_moment_spec_witness :
    (sampleOffsets testFerrite.length).head? = some (-((testFerrite.length : ℤ) / 2))
    ∧ (sampleOffsets testFerrite.length).getLast? = some ((testFerrite.length : ℤ) / 2)
    ∧ List.Chain' (fun a b => b = a + 2) (sampleOffsets testFerrite.length)
    ∧ radiansOf ((update_moment testFerrite []).angle)
        = atan2 (specMomentForce testFerrite []).2 (specMomentForce testFerrite []).1 :=
  update_moment_spec testFerrite [] ⟨1, rfl⟩
    (fun m hm => absurd hm (List.not_mem_nil m))
    (fun _ _ m hm => absurd hm (List.not_mem_nil m))

theorem animClosedForm (k : ℕ) (hk : k ≤ 99) :
    animStep^[k] animStart = ⟨[10 - (k : ℚ) / 10, (k : ℚ) / 10, 0], 0, 1⟩ := by
  induction k with
  | zero =>
    simp [animStart]
  | succ n ih =>
    have hn : n ≤ 99 := Nat.le_of_succ_le hk
    have h98 : (n : ℚ) ≤ 98 := by
      have : n ≤ 98 := by omega
      exact_mod_cast this
    rw [Function.iterate_succ_apply', ih hn]
    unfold animStep
    simp only [List.getD_cons_zero, List.getD_cons_succ, List.set_cons_zero, List.set_cons_succ]
    rw [if_neg (by push_neg; linarith)]
    have e1 : 10 - (n : ℚ) / 10 - 1 / 10 = 10 - ((n : ℕ) + 1 : ℕ) / 10 := by
      push_cast
      ring
    have e2 : (n : ℚ) / 10 + 1 / 10 = ((n : ℕ) + 1 : ℕ) / 10 := by
      push_cast
      ring
    rw [e1, e2]

/-- Claim C6: starting from strengths `(10, 0, 0)` with the transfer
pointer at `(index, next) = (0, 1)`, the pointer is still `(0, 1)` before
each of the first `100` frames, and after exactly `100` frames of the
scripted `0.1`-per-frame transfer the strengths are exactly `(0, 10, 0)`
and the pointer has advanced exactly once, to `(index, next) = (1, 2)`. -/
theorem animation_hundred_frames :
    (∀ k < 100, (animStep^[k] animStart).index = 0 ∧ (animStep^[k] animStart).next = 1)
    ∧ animStep^[100] animStart = ⟨[0, 10, 0], 1, 2⟩ := by
  constructor
  · intro k hk
    rw [animClosedForm k (Nat.lt_succ_iff.mp hk)]
    exact ⟨rfl, rfl⟩
  · have h99 := animClosedForm 99 (le_refl 99)
    rw [show (100 : ℕ) = 99 + 1 from rfl, Function.iterate_succ_apply', h99]
    unfold animStep
    simp only [List.getD_cons_zero, List.getD_cons_succ, List.set_cons_zero, List.set_cons_succ]
    rw [if_pos (by norm_num)]
    norm_num

/-- Witness for C6: before frame `50` the transfer pointer is still at
`(0, 1)`. -/
theorem animation_hundred_frames_witness :
    (animStep^[50] animStart).index = 0 ∧ (animStep^[50] animStart).next = 1 :=
  animation_hundred_frames.1 50 (by norm_num)

/-- Witness for C1: the specification equality instantiated at the query
point `(5, 5)` and the empty magnet list. -/
theorem calculate_field_direction_eq_atan2_specFieldSum_witness :
    calculate_field_direction (5, 5) []
      = atan2 (specFieldSum (5, 5) []).2 (specFieldSum (5, 5) []).1 :=
  calculate_field_direction_eq_atan2_specFieldSum (5, 5) []

/-- Witness for C4: one tracer step from `(3, 3)` moves the point by
exactly the resolution distance `1`. -/
theorem draw_field_lines_seed_step_spec_witness :
    distPt (3, 3) (stepPoint [] 0 (3, 3)) = 1 :=
  ((draw_field_lines_seed_step_spec degenerateMagnet [] 0 0).2.2.2.2 (3, 3)).2
